import Mathlib

/-
Verification development for the drkka typing-capture codec.

The compressor side embeds `src/frontend/process_and_pack.js` (the live,
threshold-based variant) and the replay side embeds `src/frontend/review.js`.
Modelling conventions:
  * JavaScript strings are `List Char`;
  * timestamps (floating-point milliseconds) are `ℚ`;
  * `Math.round` is Mathlib's `round` (both round half up);
  * the mutable `reviewState` object is explicit state passing over
    `ReviewState`/`TextBuffer`;
  * `throw new Error(msg)` is `Except.error msg`.
-/

set_option autoImplicit false

/-- Special (non-printable) key names recorded by the capture layer
(`event.key` values of `special` raw events). -/
inductive SpecialKey where
  | Backspace | Enter | Delete | ArrowLeft | ArrowRight | ArrowUp | ArrowDown
deriving DecidableEq

/-- A raw captured event (`rawEvents` entries): tagged by `type` with a
monotone timestamp in milliseconds. -/
inductive RawEvent where
  | key (k : Char) (timestamp : ℚ)
  | special (k : SpecialKey) (timestamp : ℚ)
  | paste (content : List Char) (timestamp : ℚ)
  | selection (selStart selEnd : Nat) (timestamp : ℚ)
deriving DecidableEq

/-- The `timestamp` field shared by every raw-event variant. -/
def RawEvent.timestamp : RawEvent → ℚ
  | RawEvent.key _ t => t
  | RawEvent.special _ t => t
  | RawEvent.paste _ t => t
  | RawEvent.selection _ _ t => t

/-- `THRESHOLD_MAX_INTERVAL_MS` from process_and_pack.js. -/
def THRESHOLD_MAX_INTERVAL_MS : ℚ := 1600

/-- `MIN_SEGMENT_LENGTH` from process_and_pack.js. -/
def MIN_SEGMENT_LENGTH : Nat := 3

/-- `keyToString(event)`: a printable key maps to its own character, the
escape-foldable specials map to control characters, everything else
(arrow keys, paste, selection) maps to `null`. -/
def keyToString : RawEvent → Option Char
  | RawEvent.key k _ => some k
  | RawEvent.special s _ =>
      match s with
      | SpecialKey.Backspace => some '\x08'
      | SpecialKey.Enter => some '\n'
      | SpecialKey.Delete => some '\x7F'
      | _ => none
  | _ => none

/-- The collection loop of `extractSegment`: starting at the head, keep
events whose `keyToString` is non-null, and stop (inclusively) after an
event whose gap to the next raw event reaches the threshold. -/
def collectSegment : List RawEvent → List RawEvent
  | [] => []
  | e :: rest =>
    match keyToString e with
    | none => []
    | some _ =>
      match rest with
      | [] => [e]
      | next :: _ =>
        if THRESHOLD_MAX_INTERVAL_MS ≤ next.timestamp - e.timestamp then [e]
        else e :: collectSegment rest

/-- `mean(values)` from process_and_pack.js. -/
def mean (values : List ℚ) : ℚ :=
  if values.length = 0 then 0 else values.sum / values.length

/-- The record returned by a successful `extractSegment` call
(`canCompress: true` is the `some` case of the embedding). -/
structure Segment where
  length : Nat
  string : List Char
  meanInterval : ℤ
deriving DecidableEq

/-- Consecutive inter-event gaps inside a segment (the `intervals` array). -/
def segmentIntervals (segment : List RawEvent) : List ℚ :=
  (segment.zip segment.tail).map (fun p => p.2.timestamp - p.1.timestamp)

/-- `extractSegment(rawEvents, startIdx)`, taking the suffix of the raw
array that starts at `startIdx`.  Returns `none` for `canCompress: false`. -/
def extractSegment (events : List RawEvent) : Option Segment :=
  let segment := collectSegment events
  if segment.length < MIN_SEGMENT_LENGTH then none
  else
    some { length := segment.length
         , string := segment.filterMap keyToString
         , meanInterval := round (mean (segmentIntervals segment)) }

/-- The compressed wire format (`CompressedEvent`), tagged by `type`. -/
inductive CompressedEvent where
  | compressed (string : List Char) (latency_ms : ℤ) (interval_ms : ℤ)
  | raw_key (key : Char) (latency_ms : ℤ)
  | raw_special (key : SpecialKey) (latency_ms : ℤ)
  | raw_paste (content : List Char) (latency_ms : ℤ)
  | selection_change (selStart selEnd : Nat) (latency_ms : ℤ)
deriving DecidableEq

/-- The `latency_ms` field shared by every compressed-event variant. -/
def CompressedEvent.latency_ms : CompressedEvent → ℤ
  | CompressedEvent.compressed _ lat _ => lat
  | CompressedEvent.raw_key _ lat => lat
  | CompressedEvent.raw_special _ lat => lat
  | CompressedEvent.raw_paste _ lat => lat
  | CompressedEvent.selection_change _ _ lat => lat

/-- The single-event fallback emissions of `compressEvents`: `RAW_KEY`,
`RAW_SPECIAL`, `RAW_PASTE`, `SELECTION_CHANGE` according to the raw type. -/
def emitSingle (e : RawEvent) (latency : ℤ) : CompressedEvent :=
  match e with
  | RawEvent.key k _ => CompressedEvent.raw_key k latency
  | RawEvent.special s _ => CompressedEvent.raw_special s latency
  | RawEvent.paste content _ => CompressedEvent.raw_paste content latency
  | RawEvent.selection a b _ => CompressedEvent.selection_change a b latency

/-- `event.type === 'key' || event.type === 'special'`. -/
def isTypingEvent : RawEvent → Bool
  | RawEvent.key _ _ => true
  | RawEvent.special _ _ => true
  | _ => false

/-- `latency_ms` computation of `compressEvents`: `0` at position 0,
otherwise the rounded gap from the previous raw event's timestamp. -/
def latencyFrom (prev : Option ℚ) (e : RawEvent) : ℤ :=
  match prev with
  | none => 0
  | some p => round (e.timestamp - p)

/-- The main loop of `compressEvents`.  `prev` is the timestamp of the raw
event just before the current position (`none` at position 0).  On a
successful extraction the loop advances past the whole run
(`i += segment.length`), so the next latency is measured from the run's
last raw event; `rest.drop (seg.length - 1)` is that advance (the run is
never empty, so this equals dropping `seg.length` events overall). -/
def compressEventsAux (prev : Option ℚ) (l : List RawEvent) : List CompressedEvent :=
  match l with
  | [] => []
  | e :: rest =>
    if isTypingEvent e then
      match extractSegment (e :: rest) with
      | some seg =>
          CompressedEvent.compressed seg.string (latencyFrom prev e) seg.meanInterval ::
            compressEventsAux (some (((e :: rest).take seg.length).getLastD e).timestamp)
              (rest.drop (seg.length - 1))
      | none =>
          emitSingle e (latencyFrom prev e) :: compressEventsAux (some e.timestamp) rest
    else
      emitSingle e (latencyFrom prev e) :: compressEventsAux (some e.timestamp) rest
termination_by l.length
decreasing_by
  · simp only [List.length_cons, List.length_drop]
    omega
  · simp only [List.length_cons]
    omega
  · simp only [List.length_cons]
    omega

/-- `compressEvents(rawEvents)`. -/
def compressEvents (rawEvents : List RawEvent) : List CompressedEvent :=
  compressEventsAux none rawEvents

/-- Placeholder raw event used only as the (never-reached) default of
`List.headD`/`List.getLastD` on nonempty lists. -/
def dummyEvent : RawEvent := RawEvent.key ' ' 0

/-- `calculateEndTime(rawEvents, startTime_ms)`.  `now` stands for the
`performance.now()` reading taken when the list is empty; the JavaScript
`startTime_ms || performance.now()` treats both an absent and a zero
start time as falsy. -/
def calculateEndTime (rawEvents : List RawEvent) (startTime_ms : Option ℚ) (now : ℚ) : ℚ :=
  match rawEvents with
  | [] =>
    match startTime_ms with
    | some t => if t = 0 then now else t
    | none => now
  | _ => (rawEvents.getLastD dummyEvent).timestamp

-- ============================================
-- Replay side (src/frontend/review.js)
-- ============================================

/-- The text-reconstruction part of `reviewState`:
`currentText` and `cursorPosition`. -/
structure TextBuffer where
  text : List Char
  cursor : Nat
deriving DecidableEq

/-- `insertCharacter(char)`. -/
def insertCharacter (c : Char) (b : TextBuffer) : TextBuffer :=
  { text := b.text.take b.cursor ++ [c] ++ b.text.drop b.cursor
  , cursor := b.cursor + 1 }

/-- `insertText(text)` (paste handling). -/
def insertText (s : List Char) (b : TextBuffer) : TextBuffer :=
  { text := b.text.take b.cursor ++ s ++ b.text.drop b.cursor
  , cursor := b.cursor + s.length }

/-- `applySpecialKey(key)`. -/
def applySpecialKey (key : SpecialKey) (b : TextBuffer) : TextBuffer :=
  match key with
  | SpecialKey.Backspace =>
      if 0 < b.cursor then
        { text := b.text.take (b.cursor - 1) ++ b.text.drop b.cursor
        , cursor := b.cursor - 1 }
      else b
  | SpecialKey.Delete =>
      if b.cursor < b.text.length then
        { text := b.text.take b.cursor ++ b.text.drop (b.cursor + 1)
        , cursor := b.cursor }
      else b
  | SpecialKey.Enter =>
      { text := b.text.take b.cursor ++ ['\n'] ++ b.text.drop b.cursor
      , cursor := b.cursor + 1 }
  | SpecialKey.ArrowLeft =>
      if 0 < b.cursor then { b with cursor := b.cursor - 1 } else b
  | SpecialKey.ArrowRight =>
      if b.cursor < b.text.length then { b with cursor := b.cursor + 1 } else b
  | SpecialKey.ArrowUp => b
  | SpecialKey.ArrowDown => b

/-- `updateCursorPosition(start, _end)`: moves the cursor to `start`
(the `_end` argument is ignored; no clamping is performed). -/
def updateCursorPosition (selStart _selEnd : Nat) (b : TextBuffer) : TextBuffer :=
  { b with cursor := selStart }

/-- One character of `applyCompressedEvent`'s decode switch. -/
def applyCompressedChar (c : Char) (b : TextBuffer) : TextBuffer :=
  if c = '\x08' then applySpecialKey SpecialKey.Backspace b
  else if c = '\n' then applySpecialKey SpecialKey.Enter b
  else if c = '\x7F' then applySpecialKey SpecialKey.Delete b
  else insertCharacter c b

/-- `applyCompressedEvent(event)`: decode the string character by
character (timing and pause handling do not affect the buffer). -/
def applyCompressedEvent (s : List Char) (b : TextBuffer) : TextBuffer :=
  s.foldl (fun acc c => applyCompressedChar c acc) b

/-- `applyEvent(event)` restricted to its effect on the text buffer. -/
def applyEvent (b : TextBuffer) (ev : CompressedEvent) : TextBuffer :=
  match ev with
  | CompressedEvent.compressed s _ _ => applyCompressedEvent s b
  | CompressedEvent.raw_key k _ => insertCharacter k b
  | CompressedEvent.raw_special k _ => applySpecialKey k b
  | CompressedEvent.raw_paste content _ => insertText content b
  | CompressedEvent.selection_change a bnd _ => updateCursorPosition a bnd b

/-- Direct application of one raw event with the replay buffer primitives:
the reference semantics of the round-trip property (a captured key is an
insertion, a special key its `applySpecialKey` action, a paste an
`insertText`, a selection a cursor move). -/
def applyRawEvent (b : TextBuffer) (e : RawEvent) : TextBuffer :=
  match e with
  | RawEvent.key k _ => insertCharacter k b
  | RawEvent.special s _ => applySpecialKey s b
  | RawEvent.paste content _ => insertText content b
  | RawEvent.selection a bnd _ => updateCursorPosition a bnd b

/-- The scheduler-relevant part of the mutable `reviewState` object. -/
structure ReviewState where
  events : List CompressedEvent
  currentEventIndex : Nat
  isPlaying : Bool
  isPaused : Bool
  speed : ℚ
  buffer : TextBuffer
deriving DecidableEq

/-- The initial `reviewState` literal of review.js. -/
def initialReviewState : ReviewState :=
  { events := [], currentEventIndex := 0, isPlaying := false, isPaused := false
  , speed := 1, buffer := { text := [], cursor := 0 } }

/-- `stopReplay()` (UI updates elided). -/
def stopReplay (st : ReviewState) : ReviewState :=
  { st with isPlaying := false, isPaused := false }

/-- The synchronous denotation of the recursive `playNextEvent()` loop,
with the timed waits elided: past the end it calls `stopReplay`; a paused
state is left as is (resumption is driven externally); otherwise the
current event is applied and the index advanced. -/
def playEvents (st : ReviewState) : ReviewState :=
  if st.events.length ≤ st.currentEventIndex then stopReplay st
  else if st.isPaused then st
  else
    match st.events[st.currentEventIndex]? with
    | none => stopReplay st
    | some ev =>
        playEvents { st with buffer := applyEvent st.buffer ev,
                             currentEventIndex := st.currentEventIndex + 1 }
termination_by st.events.length - st.currentEventIndex
decreasing_by omega

/-- The message passed to `showError` by `startReplay` on an empty log. -/
def msgNoEvents : String := "No events to replay"

/-- `startReplay()`: on an empty event log it shows an error and returns
without touching the scheduler state; otherwise it enters the playing
state and runs the replay loop.  The second component is the error
message shown, if any. -/
def startReplay (st : ReviewState) : ReviewState × Option String :=
  if st.events.length = 0 then (st, some msgNoEvents)
  else (playEvents { st with isPlaying := true, isPaused := false }, none)

/-- `changeSpeed()` with the parsed selector value as argument: a positive
value is stored; any other value resets the speed to `1.0`. -/
def changeSpeed (newSpeed : ℚ) (st : ReviewState) : ReviewState :=
  if 0 < newSpeed then { st with speed := newSpeed } else { st with speed := 1 }

-- ============================================
-- processAndPack (src/frontend/process_and_pack.js)
-- ============================================

/-- The metadata object; only `studentName` is inspected by the code
(`none` models an absent property). -/
structure Metadata where
  studentName : Option (List Char)
deriving DecidableEq

/-- The argument object of `processAndPack`.  `rawEvents = none` models a
missing or non-array `rawEvents` value. -/
structure SubmissionData where
  rawEvents : Option (List RawEvent)
  metadata : Option Metadata
  finalAnswer : Option (List Char)
  startTime_ms : Option ℚ
  questionIndex : Option Nat
  questionTitle : Option (List Char)
  questionText : Option (List Char)
deriving DecidableEq

/-- `DEFAULT_EXAM_ID`. -/
def DEFAULT_EXAM_ID : String := "EXAM-DEMO-001"

def msgNoData : String := "No data provided to processAndPack"

def msgRawEventsArray : String := "rawEvents must be an array"

def msgMetadataRequired : String := "metadata is required and must be an object"

def msgStudentNameRequired : String := "Student name is required in metadata"

def msgFinalAnswerRequired : String := "finalAnswer is required"

/-- ASCII whitespace test used by the `String.prototype.trim` model. -/
def isWhitespaceChar (c : Char) : Bool :=
  c = ' ' || c = '\t' || c = '\n' || c = '\x0D'

/-- Model of `String.prototype.trim` (leading and trailing whitespace
removed). -/
def trimWhitespace (s : List Char) : List Char :=
  ((s.dropWhile isWhitespaceChar).reverse.dropWhile isWhitespaceChar).reverse

/-- The `q1` payload of the packed submission. -/
structure PackedQuestion where
  questionIndex : Option Nat
  questionTitle : Option (List Char)
  question : Option (List Char)
  finalAnswer : List Char
  startTime_ms : Option ℚ
  endTime_ms : ℚ
  eventLog : List CompressedEvent
deriving DecidableEq

/-- The packed submission (the randomly generated `studentId` and the
wall-clock `submissionTime` are elided as nondeterministic). -/
structure PackedSubmission where
  examId : String
  metadata : Metadata
  q1 : PackedQuestion
deriving DecidableEq

/-- `processAndPack(data)`.  `now` stands for the `performance.now()`
reading used by `calculateEndTime` when the event list is empty.  Each
`throw` is an `Except.error` with the thrown message; validation happens
before `calculateEndTime`/`compressEvents` run, exactly as in the source. -/
def processAndPack (now : ℚ) (data? : Option SubmissionData) :
    Except String PackedSubmission :=
  match data? with
  | none => Except.error msgNoData
  | some data =>
    match data.rawEvents with
    | none => Except.error msgRawEventsArray
    | some rawEvents =>
      match data.metadata with
      | none => Except.error msgMetadataRequired
      | some md =>
        match md.studentName with
        | none => Except.error msgStudentNameRequired
        | some name =>
          if trimWhitespace name = [] then Except.error msgStudentNameRequired
          else
            match data.finalAnswer with
            | none => Except.error msgFinalAnswerRequired
            | some ans =>
              Except.ok
                { examId := DEFAULT_EXAM_ID
                , metadata := md
                , q1 := { questionIndex := data.questionIndex
                        , questionTitle := data.questionTitle
                        , question := data.questionText
                        , finalAnswer := ans
                        , startTime_ms := data.startTime_ms
                        , endTime_ms := calculateEndTime rawEvents data.startTime_ms now
                        , eventLog := compressEvents rawEvents } }

/-- The submissions `processAndPack` accepts: an object is present, the
event log is an array, the metadata object carries a student name that is
non-blank after trimming, and a final answer is present. -/
def validSubmission (data? : Option SubmissionData) : Prop :=
  ∃ data, data? = some data ∧ data.rawEvents.isSome = true ∧
    (∃ md name, data.metadata = some md ∧ md.studentName = some name ∧
      trimWhitespace name ≠ []) ∧ data.finalAnswer.isSome = true

-- ============================================
-- Characterization device for the latency claim
-- ============================================

/-- The grouping of the raw stream induced by `compressEvents`: each
compressed run is one group (the `take seg.length` slice of the stream),
every other position is a singleton group.  `compressEvents` emits exactly
one `CompressedEvent` per group, in order. -/
def segments (l : List RawEvent) : List (List RawEvent) :=
  match l with
  | [] => []
  | e :: rest =>
    if isTypingEvent e then
      match extractSegment (e :: rest) with
      | some seg => (e :: rest).take seg.length :: segments (rest.drop (seg.length - 1))
      | none => [e] :: segments rest
    else [e] :: segments rest
termination_by l.length
decreasing_by
  · simp only [List.length_cons, List.length_drop]
    omega
  · simp only [List.length_cons]
    omega
  · simp only [List.length_cons]
    omega

/-- The latencies `compressEvents` assigns, read off the grouping: each
group's emitted event gets the rounded gap from the end (last raw
timestamp) of the previous group to the start (first raw timestamp) of
this group, and the first emitted event gets `0`. -/
def latenciesFrom (prev : Option ℚ) : List (List RawEvent) → List ℤ
  | [] => []
  | g :: gs =>
      latencyFrom prev (g.headD dummyEvent) ::
        latenciesFrom (some ((g.getLastD dummyEvent).timestamp)) gs

/-- A captured printable-key event never carries one of the three escape
control characters (they arrive as `special` events); other event kinds
are unconstrained. -/
def keyOk (e : RawEvent) : Bool :=
  match e with
  | RawEvent.key k _ => !(k = '\x08' || k = '\n' || k = '\x7F')
  | _ => true

/-- Well-formedness of a captured raw stream (the round-trip property is
stated over such streams). -/
def wellFormed (l : List RawEvent) : Bool := l.all keyOk

/-- The empty text buffer replay starts from. -/
def emptyBuffer : TextBuffer := { text := [], cursor := 0 }

/-- Concrete scenario: keys `a` at 0 and `b` at 2000 (gap at threshold). -/
def abEvents : List RawEvent := [RawEvent.key 'a' 0, RawEvent.key 'b' 2000]

/-- Concrete scenario: `h,e,l,l,o` at 0,120,240,360,480 and Backspace at
600. -/
def helloEvents : List RawEvent :=
  [RawEvent.key 'h' 0, RawEvent.key 'e' 120, RawEvent.key 'l' 240,
   RawEvent.key 'l' 360, RawEvent.key 'o' 480,
   RawEvent.special SpecialKey.Backspace 600]

/-- A mixed concrete stream exercising compression, paste, arrows and
selection. -/
def mixedEvents : List RawEvent :=
  helloEvents ++
    [RawEvent.paste ['!', '?'] 5000,
     RawEvent.special SpecialKey.ArrowLeft 6000,
     RawEvent.selection 1 3 7000,
     RawEvent.key 'z' 7100]

-- ============================================
-- Helper lemmas
-- ============================================

theorem collectSegment_cons_none {e : RawEvent} (rest : List RawEvent)
    (hk : keyToString e = none) : collectSegment (e :: rest) = [] := by
  simp [collectSegment, hk]

theorem collectSegment_singleton {e : RawEvent} {c : Char}
    (hk : keyToString e = some c) : collectSegment [e] = [e] := by
  simp [collectSegment, hk]

theorem collectSegment_cons_break {e nxt : RawEvent} {c : Char} (tl : List RawEvent)
    (hk : keyToString e = some c)
    (hth : THRESHOLD_MAX_INTERVAL_MS ≤ nxt.timestamp - e.timestamp) :
    collectSegment (e :: nxt :: tl) = [e] := by
  simp [collectSegment, hk, hth]

theorem collectSegment_cons_cont {e nxt : RawEvent} {c : Char} (tl : List RawEvent)
    (hk : keyToString e = some c)
    (hth : ¬ THRESHOLD_MAX_INTERVAL_MS ≤ nxt.timestamp - e.timestamp) :
    collectSegment (e :: nxt :: tl) = e :: collectSegment (nxt :: tl) := by
  simp [collectSegment, hk, hth]

theorem collectSegment_take (l : List RawEvent) :
    l.take (collectSegment l).length = collectSegment l := by
  induction l with
  | nil => simp [collectSegment]
  | cons e rest ih =>
    cases hk : keyToString e with
    | none => simp [collectSegment_cons_none rest hk]
    | some c =>
      cases rest with
      | nil => simp [collectSegment_singleton hk]
      | cons nxt tl =>
        by_cases hth : THRESHOLD_MAX_INTERVAL_MS ≤ nxt.timestamp - e.timestamp
        · simp [collectSegment_cons_break tl hk hth]
        · rw [collectSegment_cons_cont tl hk hth]
          simp only [List.length_cons, List.take_succ_cons, ih]

theorem collectSegment_length_le (l : List RawEvent) :
    (collectSegment l).length ≤ l.length := by
  have h := congrArg List.length (collectSegment_take l)
  simp only [List.length_take] at h
  omega

theorem collectSegment_isSome (l : List RawEvent) :
    ∀ x ∈ collectSegment l, (keyToString x).isSome = true := by
  induction l with
  | nil => simp [collectSegment]
  | cons e rest ih =>
    cases hk : keyToString e with
    | none => simp [collectSegment_cons_none rest hk]
    | some c =>
      cases rest with
      | nil =>
        simp [collectSegment_singleton hk, hk]
      | cons nxt tl =>
        by_cases hth : THRESHOLD_MAX_INTERVAL_MS ≤ nxt.timestamp - e.timestamp
        · simp [collectSegment_cons_break tl hk hth, hk]
        · intro x hx
          rw [collectSegment_cons_cont tl hk hth] at hx
          rcases List.mem_cons.mp hx with rfl | hx
          · simp [hk]
          · exact ih x hx

theorem length_filterMap_isSome {α β : Type} (f : α → Option β) :
    ∀ (l : List α), (∀ x ∈ l, (f x).isSome = true) →
      (l.filterMap f).length = l.length := by
  intro l
  induction l with
  | nil => simp
  | cons a t ih =>
    intro h
    obtain ⟨b, hb⟩ := Option.isSome_iff_exists.mp (h a (List.mem_cons_self a t))
    simp only [List.filterMap_cons, hb, List.length_cons]
    rw [ih (fun x hx => h x (List.mem_cons_of_mem a hx))]

theorem extractSegment_eq_some {l : List RawEvent} {seg : Segment}
    (h : extractSegment l = some seg) :
    seg.length = (collectSegment l).length ∧ MIN_SEGMENT_LENGTH ≤ seg.length ∧
      seg.string = (collectSegment l).filterMap keyToString := by
  by_cases hlt : (collectSegment l).length < MIN_SEGMENT_LENGTH
  · simp [extractSegment, hlt] at h
  · simp only [extractSegment, hlt, if_false, Option.some.injEq] at h
    subst h
    simp only [true_and, and_true]
    omega

theorem extractSegment_eq_none {l : List RawEvent}
    (h : extractSegment l = none) :
    (collectSegment l).length < MIN_SEGMENT_LENGTH := by
  by_cases hlt : (collectSegment l).length < MIN_SEGMENT_LENGTH
  · exact hlt
  · simp [extractSegment, hlt] at h

theorem compressEventsAux_nil (prev : Option ℚ) : compressEventsAux prev [] = [] := by
  rw [compressEventsAux]

theorem compressEventsAux_cons_nonTyping (prev : Option ℚ) (e : RawEvent)
    (rest : List RawEvent) (ht : isTypingEvent e = false) :
    compressEventsAux prev (e :: rest) =
      emitSingle e (latencyFrom prev e) :: compressEventsAux (some e.timestamp) rest := by
  rw [compressEventsAux]
  simp [ht]

theorem compressEventsAux_cons_noSeg (prev : Option ℚ) (e : RawEvent)
    (rest : List RawEvent) (hs : extractSegment (e :: rest) = none) :
    compressEventsAux prev (e :: rest) =
      emitSingle e (latencyFrom prev e) :: compressEventsAux (some e.timestamp) rest := by
  rw [compressEventsAux]
  by_cases ht : isTypingEvent e <;> simp [ht, hs]

theorem compressEventsAux_cons_seg (prev : Option ℚ) (e : RawEvent)
    (rest : List RawEvent) (seg : Segment) (ht : isTypingEvent e = true)
    (hs : extractSegment (e :: rest) = some seg) :
    compressEventsAux prev (e :: rest) =
      CompressedEvent.compressed seg.string (latencyFrom prev e) seg.meanInterval ::
        compressEventsAux (some (((e :: rest).take seg.length).getLastD e).timestamp)
          (rest.drop (seg.length - 1)) := by
  rw [compressEventsAux]
  simp [ht, hs]

theorem segments_nil : segments [] = [] := by
  rw [segments]

theorem segments_cons_nonTyping (e : RawEvent) (rest : List RawEvent)
    (ht : isTypingEvent e = false) :
    segments (e :: rest) = [e] :: segments rest := by
  rw [segments]
  simp [ht]

theorem segments_cons_noSeg (e : RawEvent) (rest : List RawEvent)
    (hs : extractSegment (e :: rest) = none) :
    segments (e :: rest) = [e] :: segments rest := by
  rw [segments]
  by_cases ht : isTypingEvent e <;> simp [ht, hs]

theorem segments_cons_seg (e : RawEvent) (rest : List RawEvent) (seg : Segment)
    (ht : isTypingEvent e = true) (hs : extractSegment (e :: rest) = some seg) :
    segments (e :: rest) =
      (e :: rest).take seg.length :: segments (rest.drop (seg.length - 1)) := by
  rw [segments]
  simp [ht, hs]

theorem wellFormed_mem {l : List RawEvent} (h : wellFormed l = true) :
    ∀ x ∈ l, keyOk x = true := by
  simpa [wellFormed, List.all_eq_true] using h

theorem wellFormed_of_mem {l : List RawEvent} (h : ∀ x ∈ l, keyOk x = true) :
    wellFormed l = true := by
  simpa [wellFormed, List.all_eq_true] using h

theorem applyEvent_emitSingle (b : TextBuffer) (e : RawEvent) (lat : ℤ) :
    applyEvent b (emitSingle e lat) = applyRawEvent b e := by
  cases e <;> rfl

theorem keyToString_cases {e : RawEvent} {c : Char} (h : keyToString e = some c) :
    (∃ k t, e = RawEvent.key k t ∧ c = k) ∨
      (∃ t, e = RawEvent.special SpecialKey.Backspace t ∧ c = '\x08') ∨
      (∃ t, e = RawEvent.special SpecialKey.Enter t ∧ c = '\n') ∨
      (∃ t, e = RawEvent.special SpecialKey.Delete t ∧ c = '\x7F') := by
  cases e with
  | key k t =>
    left
    refine ⟨k, t, rfl, ?_⟩
    simp [keyToString] at h
    exact h.symm
  | special s t =>
    right
    cases s with
    | Backspace =>
      left
      refine ⟨t, rfl, ?_⟩
      simp [keyToString] at h
      exact h.symm
    | Enter =>
      right; left
      refine ⟨t, rfl, ?_⟩
      simp [keyToString] at h
      exact h.symm
    | Delete =>
      right; right
      refine ⟨t, rfl, ?_⟩
      simp [keyToString] at h
      exact h.symm
    | ArrowLeft => simp [keyToString] at h
    | ArrowRight => simp [keyToString] at h
    | ArrowUp => simp [keyToString] at h
    | ArrowDown => simp [keyToString] at h
  | paste content t => simp [keyToString] at h
  | selection a bnd t => simp [keyToString] at h

theorem applyCompressedChar_eq {e : RawEvent} {c : Char} (h : keyToString e = some c)
    (hok : keyOk e = true) (b : TextBuffer) :
    applyCompressedChar c b = applyRawEvent b e := by
  rcases keyToString_cases h with ⟨k, t, rfl, rfl⟩ | ⟨t, rfl, rfl⟩ | ⟨t, rfl, rfl⟩ | ⟨t, rfl, rfl⟩
  · simp only [keyOk, Bool.not_eq_true', Bool.or_eq_false_iff, decide_eq_false_iff_not] at hok
    obtain ⟨⟨h1, h2⟩, h3⟩ := hok
    simp [applyCompressedChar, applyRawEvent, h1, h2, h3]
  · simp [applyCompressedChar, applyRawEvent]
  · simp [applyCompressedChar, applyRawEvent]
  · simp [applyCompressedChar, applyRawEvent]

theorem applyCompressedEvent_cons (c : Char) (cs : List Char) (b : TextBuffer) :
    applyCompressedEvent (c :: cs) b = applyCompressedEvent cs (applyCompressedChar c b) := rfl

theorem applyCompressedEvent_filterMap :
    ∀ (S : List RawEvent) (b : TextBuffer),
      (∀ x ∈ S, (keyToString x).isSome = true) → (∀ x ∈ S, keyOk x = true) →
      applyCompressedEvent (S.filterMap keyToString) b = S.foldl applyRawEvent b := by
  intro S
  induction S with
  | nil => intro b _ _; rfl
  | cons e t ih =>
    intro b hsome hok
    obtain ⟨c, hc⟩ := Option.isSome_iff_exists.mp (hsome e (List.mem_cons_self e t))
    rw [show (e :: t).filterMap keyToString = c :: t.filterMap keyToString by
          simp [List.filterMap_cons, hc]]
    rw [applyCompressedEvent_cons, List.foldl_cons,
        applyCompressedChar_eq hc (hok e (List.mem_cons_self e t)) b]
    exact ih _ (fun x hx => hsome x (List.mem_cons_of_mem e hx))
      (fun x hx => hok x (List.mem_cons_of_mem e hx))

theorem compress_roundtrip_aux :
    ∀ (n : Nat) (l : List RawEvent), l.length ≤ n → wellFormed l = true →
      ∀ (prev : Option ℚ) (b : TextBuffer),
        (compressEventsAux prev l).foldl applyEvent b = l.foldl applyRawEvent b := by
  intro n
  induction n with
  | zero =>
    intro l hl _ prev b
    have hnil : l = [] := List.length_eq_zero.mp (Nat.le_zero.mp hl)
    subst hnil
    simp [compressEventsAux_nil]
  | succ n ih =>
    intro l hl hwf prev b
    cases l with
    | nil => simp [compressEventsAux_nil]
    | cons e rest =>
      have hwfAll : ∀ x ∈ e :: rest, keyOk x = true := wellFormed_mem hwf
      have hrest : rest.length ≤ n := by
        simp only [List.length_cons] at hl
        omega
      by_cases ht : isTypingEvent e = true
      · cases hseg : extractSegment (e :: rest) with
        | none =>
          rw [compressEventsAux_cons_noSeg prev e rest hseg, List.foldl_cons,
              List.foldl_cons, applyEvent_emitSingle]
          exact ih rest hrest
            (wellFormed_of_mem (fun x hx => hwfAll x (List.mem_cons_of_mem e hx))) _ _
        | some seg =>
          rw [compressEventsAux_cons_seg prev e rest seg ht hseg, List.foldl_cons]
          obtain ⟨hlen, hmin, hstr⟩ := extractSegment_eq_some hseg
          have hSpos : 1 ≤ seg.length := by
            have : (3:Nat) ≤ seg.length := hmin
            omega
          have htake : (e :: rest).take seg.length = collectSegment (e :: rest) := by
            rw [hlen]
            exact collectSegment_take (e :: rest)
          have hdrop : rest.drop (seg.length - 1) = (e :: rest).drop seg.length := by
            have hk : seg.length = (seg.length - 1) + 1 := by omega
            conv_rhs => rw [hk, List.drop_succ_cons]
          have happ : applyEvent b
              (CompressedEvent.compressed seg.string (latencyFrom prev e) seg.meanInterval) =
              applyCompressedEvent seg.string b := rfl
          rw [happ]
          have hL'len : (rest.drop (seg.length - 1)).length ≤ n := by
            have := List.length_drop (seg.length - 1) rest
            omega
          have hL'wf : wellFormed (rest.drop (seg.length - 1)) = true := by
            refine wellFormed_of_mem (fun x hx => ?_)
            exact hwfAll x (List.mem_cons_of_mem e (List.drop_subset _ _ hx))
          rw [ih _ hL'len hL'wf _ _]
          have hSsub : ∀ x ∈ collectSegment (e :: rest), x ∈ e :: rest := by
            intro x hx
            rw [← htake] at hx
            exact List.take_subset _ _ hx
          rw [hstr, applyCompressedEvent_filterMap _ b (collectSegment_isSome _)
              (fun x hx => hwfAll x (hSsub x hx))]
          have hsplit : collectSegment (e :: rest) ++ rest.drop (seg.length - 1) = e :: rest := by
            rw [hdrop, ← htake]
            exact List.take_append_drop _ _
          conv_rhs => rw [← hsplit]
          rw [List.foldl_append]
      · rw [compressEventsAux_cons_nonTyping prev e rest (by simpa using ht),
            List.foldl_cons, List.foldl_cons, applyEvent_emitSingle]
        exact ih rest hrest
          (wellFormed_of_mem (fun x hx => hwfAll x (List.mem_cons_of_mem e hx))) _ _

theorem take_cons_of_pos {α : Type} (e : α) (rest : List α) (k : Nat) (hk : 1 ≤ k) :
    (e :: rest).take k = e :: rest.take (k - 1) := by
  have h : k = (k - 1) + 1 := by omega
  conv_lhs => rw [h]
  rw [List.take_succ_cons]

theorem getLastD_congr {α : Type} (l : List α) (a b : α) (h : l ≠ []) :
    l.getLastD a = l.getLastD b := by
  cases l with
  | nil => exact absurd rfl h
  | cons x xs => rw [List.getLastD_cons, List.getLastD_cons]

theorem latency_ms_emitSingle (e : RawEvent) (lat : ℤ) :
    (emitSingle e lat).latency_ms = lat := by
  cases e <;> rfl

theorem map_latency_aux :
    ∀ (n : Nat) (l : List RawEvent), l.length ≤ n → ∀ (prev : Option ℚ),
      (compressEventsAux prev l).map CompressedEvent.latency_ms =
        latenciesFrom prev (segments l) := by
  intro n
  induction n with
  | zero =>
    intro l hl prev
    have hnil : l = [] := List.length_eq_zero.mp (Nat.le_zero.mp hl)
    subst hnil
    simp [compressEventsAux_nil, segments_nil, latenciesFrom]
  | succ n ih =>
    intro l hl prev
    cases l with
    | nil => simp [compressEventsAux_nil, segments_nil, latenciesFrom]
    | cons e rest =>
      have hrest : rest.length ≤ n := by
        simp only [List.length_cons] at hl
        omega
      by_cases ht : isTypingEvent e = true
      · cases hseg : extractSegment (e :: rest) with
        | none =>
          rw [compressEventsAux_cons_noSeg prev e rest hseg,
              segments_cons_noSeg e rest hseg]
          simp only [List.map_cons, latenciesFrom, List.headD_cons, List.getLastD_cons,
            List.getLastD_nil]
          rw [latency_ms_emitSingle, ih rest hrest]
        | some seg =>
          obtain ⟨hlen, hmin, hstr⟩ := extractSegment_eq_some hseg
          have hk1 : 1 ≤ seg.length := by
            have h3 : (3:Nat) ≤ seg.length := hmin
            omega
          have htc := take_cons_of_pos e rest seg.length hk1
          have hdl : (rest.drop (seg.length - 1)).length ≤ n := by
            have := List.length_drop (seg.length - 1) rest
            omega
          rw [compressEventsAux_cons_seg prev e rest seg ht hseg,
              segments_cons_seg e rest seg ht hseg]
          simp only [List.map_cons, latenciesFrom, htc, List.headD_cons]
          rw [getLastD_congr (e :: rest.take (seg.length - 1)) dummyEvent e (by simp)]
          simp only [CompressedEvent.latency_ms]
          rw [ih _ hdl]
      · have htf : isTypingEvent e = false := by simpa using ht
        rw [compressEventsAux_cons_nonTyping prev e rest htf,
            segments_cons_nonTyping e rest htf]
        simp only [List.map_cons, latenciesFrom, List.headD_cons, List.getLastD_cons,
          List.getLastD_nil]
        rw [latency_ms_emitSingle, ih rest hrest]

theorem emitSingle_ne_compressed (e : RawEvent) (lat : ℤ) (s : List Char) (l iv : ℤ) :
    emitSingle e lat ≠ CompressedEvent.compressed s l iv := by
  cases e <;> simp [emitSingle]

theorem compressed_mem_aux :
    ∀ (n : Nat) (l : List RawEvent), l.length ≤ n →
      ∀ (prev : Option ℚ) (s : List Char) (lat iv : ℤ),
      CompressedEvent.compressed s lat iv ∈ compressEventsAux prev l →
      MIN_SEGMENT_LENGTH ≤ s.length ∧
        ∃ pre seg post, l = pre ++ seg ++ post ∧ seg ≠ [] ∧
          (∀ x ∈ seg, (keyToString x).isSome = true) ∧
          s = seg.filterMap keyToString := by
  intro n
  induction n with
  | zero =>
    intro l hl prev s lat iv hmem
    have hnil : l = [] := List.length_eq_zero.mp (Nat.le_zero.mp hl)
    subst hnil
    rw [compressEventsAux_nil] at hmem
    exact absurd hmem (List.not_mem_nil _)
  | succ n ih =>
    intro l hl prev s lat iv hmem
    cases l with
    | nil =>
      rw [compressEventsAux_nil] at hmem
      exact absurd hmem (List.not_mem_nil _)
    | cons e rest =>
      have hrest : rest.length ≤ n := by
        simp only [List.length_cons] at hl
        omega
      have liftTail : ∀ (l' : List RawEvent),
          (MIN_SEGMENT_LENGTH ≤ s.length ∧
            ∃ pre seg post, rest = pre ++ seg ++ post ∧ seg ≠ [] ∧
              (∀ x ∈ seg, (keyToString x).isSome = true) ∧
              s = seg.filterMap keyToString) → l' = e :: rest →
          MIN_SEGMENT_LENGTH ≤ s.length ∧
            ∃ pre seg post, l' = pre ++ seg ++ post ∧ seg ≠ [] ∧
              (∀ x ∈ seg, (keyToString x).isSome = true) ∧
              s = seg.filterMap keyToString := by
        rintro l' ⟨hL, pre, sg, post, heq, hne, hsome, hs⟩ rfl
        exact ⟨hL, e :: pre, sg, post, by simp [heq], hne, hsome, hs⟩
      by_cases ht : isTypingEvent e = true
      · cases hseg : extractSegment (e :: rest) with
        | none =>
          rw [compressEventsAux_cons_noSeg prev e rest hseg] at hmem
          rcases List.mem_cons.mp hmem with heq | hmem'
          · exact absurd heq.symm (emitSingle_ne_compressed e _ s lat iv)
          · exact liftTail _ (ih rest hrest _ s lat iv hmem') rfl
        | some seg =>
          obtain ⟨hlen, hmin, hstr⟩ := extractSegment_eq_some hseg
          have hk1 : 1 ≤ seg.length := by
            have h3 : (3:Nat) ≤ seg.length := hmin
            omega
          have htake : (e :: rest).take seg.length = collectSegment (e :: rest) := by
            rw [hlen]
            exact collectSegment_take (e :: rest)
          have hdrop : rest.drop (seg.length - 1) = (e :: rest).drop seg.length := by
            have hkk : seg.length = (seg.length - 1) + 1 := by omega
            conv_rhs => rw [hkk, List.drop_succ_cons]
          have hsplit : collectSegment (e :: rest) ++ rest.drop (seg.length - 1) = e :: rest := by
            rw [hdrop, ← htake]
            exact List.take_append_drop _ _
          rw [compressEventsAux_cons_seg prev e rest seg ht hseg] at hmem
          rcases List.mem_cons.mp hmem with heq | hmem'
          · injection heq with hs1 hs2 hs3
            have hslen : s.length = (collectSegment (e :: rest)).length := by
              rw [hs1, hstr]
              exact length_filterMap_isSome keyToString _ (collectSegment_isSome _)
            have hSne : collectSegment (e :: rest) ≠ [] := by
              intro hc
              rw [hc] at hlen
              simp at hlen
              have h3 : (3:Nat) ≤ seg.length := hmin
              omega
            refine ⟨?_, [], collectSegment (e :: rest), rest.drop (seg.length - 1),
              by simp [hsplit], hSne, collectSegment_isSome _, by rw [hs1, hstr]⟩
            rw [hslen, ← hlen]
            exact hmin
          · have hdl : (rest.drop (seg.length - 1)).length ≤ n := by
              have := List.length_drop (seg.length - 1) rest
              omega
            obtain ⟨hL, pre, sg, post, heq, hne, hsome, hs⟩ :=
              ih _ hdl _ s lat iv hmem'
            have hgoal : e :: rest = (collectSegment (e :: rest) ++ pre) ++ sg ++ post := by
              conv_lhs => rw [← hsplit]
              rw [heq]
              simp [List.append_assoc]
            exact ⟨hL, collectSegment (e :: rest) ++ pre, sg, post, hgoal, hne, hsome, hs⟩
      · have htf : isTypingEvent e = false := by simpa using ht
        rw [compressEventsAux_cons_nonTyping prev e rest htf] at hmem
        rcases List.mem_cons.mp hmem with heq | hmem'
        · exact absurd heq.symm (emitSingle_ne_compressed e _ s lat iv)
        · exact liftTail _ (ih rest hrest _ s lat iv hmem') rfl

theorem extract_ab : extractSegment abEvents = none := by
  norm_num [extractSegment, abEvents, collectSegment, keyToString, RawEvent.timestamp,
    THRESHOLD_MAX_INTERVAL_MS, MIN_SEGMENT_LENGTH]

theorem compress_ab :
    compressEvents abEvents =
      [CompressedEvent.raw_key 'a' 0, CompressedEvent.raw_key 'b' 2000] := by
  rw [compressEvents,
      show abEvents = RawEvent.key 'a' 0 :: [RawEvent.key 'b' 2000] from rfl,
      compressEventsAux_cons_noSeg _ _ _ extract_ab,
      compressEventsAux_cons_noSeg _ _ _ (by
        norm_num [extractSegment, collectSegment, keyToString, MIN_SEGMENT_LENGTH]),
      compressEventsAux_nil]
  norm_num [emitSingle, latencyFrom, RawEvent.timestamp]

theorem extract_hello :
    extractSegment helloEvents =
      some { length := 6, string := ['h','e','l','l','o','\x08'], meanInterval := 120 } := by
  norm_num [extractSegment, helloEvents, collectSegment, keyToString, RawEvent.timestamp,
    THRESHOLD_MAX_INTERVAL_MS, MIN_SEGMENT_LENGTH, segmentIntervals, mean,
    List.filterMap_cons]

theorem compress_hello :
    compressEvents helloEvents =
      [CompressedEvent.compressed ['h','e','l','l','o','\x08'] 0 120] := by
  rw [compressEvents,
      show helloEvents = RawEvent.key 'h' 0 ::
        [RawEvent.key 'e' 120, RawEvent.key 'l' 240, RawEvent.key 'l' 360,
         RawEvent.key 'o' 480, RawEvent.special SpecialKey.Backspace 600] from rfl,
      compressEventsAux_cons_seg none (RawEvent.key 'h' 0)
        [RawEvent.key 'e' 120, RawEvent.key 'l' 240, RawEvent.key 'l' 360,
         RawEvent.key 'o' 480, RawEvent.special SpecialKey.Backspace 600]
        { length := 6, string := ['h','e','l','l','o','\x08'], meanInterval := 120 }
        (by rfl) extract_hello]
  norm_num [latencyFrom, compressEventsAux_nil]

-- ============================================
-- Claim theorems
-- ============================================

/-- Claim C1: for every well-formed raw event sequence, replaying the
compressed log produced by `compressEvents` from an empty text buffer
yields the same final text as applying the original raw events directly
with the buffer primitives (the proof in fact gives full state equality,
so the documented arrow/selection limitations are not even needed). -/
theorem C1_compress_roundtrip (evs : List RawEvent) (h : wellFormed evs = true) :
    ((compressEvents evs).foldl applyEvent emptyBuffer).text =
      (evs.foldl applyRawEvent emptyBuffer).text := by
  rw [compressEvents, compress_roundtrip_aux evs.length evs le_rfl h none emptyBuffer]

theorem C1_compress_roundtrip_witness :
    wellFormed mixedEvents = true ∧
      ((compressEvents mixedEvents).foldl applyEvent emptyBuffer).text =
        (mixedEvents.foldl applyRawEvent emptyBuffer).text :=
  ⟨by decide, C1_compress_roundtrip mixedEvents (by decide)⟩

/-- Claim C2: for a non-empty input the compressed log is non-empty, its
first element has `latency_ms = 0`, and its latencies are exactly the
rounded gaps from the end of the previous emitted event's raw run to the
start of this event's raw run (`latenciesFrom none (segments evs)`). -/
theorem C2_latency_anchoring (evs : List RawEvent) (h : evs ≠ []) :
    (∃ c cs, compressEvents evs = c :: cs ∧ c.latency_ms = 0) ∧
      (compressEvents evs).map CompressedEvent.latency_ms =
        latenciesFrom none (segments evs) := by
  have hmap : (compressEvents evs).map CompressedEvent.latency_ms =
      latenciesFrom none (segments evs) :=
    map_latency_aux evs.length evs le_rfl none
  refine ⟨?_, hmap⟩
  cases evs with
  | nil => exact absurd rfl h
  | cons e rest =>
    have hcons : ∃ g gs, segments (e :: rest) = g :: gs := by
      by_cases ht : isTypingEvent e = true
      · cases hseg : extractSegment (e :: rest) with
        | none => exact ⟨_, _, segments_cons_noSeg e rest hseg⟩
        | some seg => exact ⟨_, _, segments_cons_seg e rest seg ht hseg⟩
      · exact ⟨_, _, segments_cons_nonTyping e rest (by simpa using ht)⟩
    obtain ⟨g, gs, hg⟩ := hcons
    rw [hg] at hmap
    cases hc : compressEvents (e :: rest) with
    | nil =>
      rw [hc] at hmap
      simp [latenciesFrom] at hmap
    | cons c cs =>
      rw [hc] at hmap
      simp only [List.map_cons, latenciesFrom, latencyFrom, List.cons.injEq] at hmap
      exact ⟨c, cs, rfl, hmap.1⟩

theorem C2_latency_anchoring_witness :
    helloEvents ≠ [] ∧
      ((∃ c cs, compressEvents helloEvents = c :: cs ∧ c.latency_ms = 0) ∧
        (compressEvents helloEvents).map CompressedEvent.latency_ms =
          latenciesFrom none (segments helloEvents)) :=
  ⟨by simp [helloEvents], C2_latency_anchoring helloEvents (by simp [helloEvents])⟩

/-- Claim C3: every `COMPRESSED` element emitted by `compressEvents` has
a decoded character/operation count (string length) of at least 3. -/
theorem C3_min_run_length (evs : List RawEvent) (s : List Char) (lat iv : ℤ)
    (h : CompressedEvent.compressed s lat iv ∈ compressEvents evs) :
    3 ≤ s.length :=
  (compressed_mem_aux evs.length evs le_rfl none s lat iv h).1

theorem C3_min_run_length_witness :
    (CompressedEvent.compressed ['h','e','l','l','o','\x08'] 0 120 ∈
        compressEvents helloEvents) ∧
      3 ≤ (['h','e','l','l','o','\x08'] : List Char).length :=
  ⟨by simp [compress_hello],
    C3_min_run_length helloEvents ['h','e','l','l','o','\x08'] 0 120
      (by simp [compress_hello])⟩

/-- Claim C4: the string of every `COMPRESSED` element is the encoding of
a contiguous run of raw events that all map through `keyToString`
(printable keys and the foldable specials only — never arrows, pastes or
selections), and consequently each character is either a captured
printable key or one of the escapes `\x08`, `\n`, `\x7F`. -/
theorem C4_non_foldability (evs : List RawEvent) (s : List Char) (lat iv : ℤ)
    (h : CompressedEvent.compressed s lat iv ∈ compressEvents evs) :
    (∃ pre seg post, evs = pre ++ seg ++ post ∧ seg ≠ [] ∧
        (∀ x ∈ seg, (keyToString x).isSome = true) ∧
        s = seg.filterMap keyToString) ∧
      ∀ c ∈ s, (∃ k t, RawEvent.key k t ∈ evs ∧ c = k) ∨
        c = '\x08' ∨ c = '\n' ∨ c = '\x7F' := by
  obtain ⟨-, pre, seg, post, heq, hne, hsome, hs⟩ :=
    compressed_mem_aux evs.length evs le_rfl none s lat iv h
  refine ⟨⟨pre, seg, post, heq, hne, hsome, hs⟩, ?_⟩
  intro c hc
  rw [hs] at hc
  obtain ⟨x, hx, hxc⟩ := List.mem_filterMap.mp hc
  rcases keyToString_cases hxc with ⟨k, t, rfl, hck⟩ | ⟨t, rfl, hck⟩ | ⟨t, rfl, hck⟩ |
    ⟨t, rfl, hck⟩
  · refine Or.inl ⟨k, t, ?_, hck⟩
    rw [heq]
    exact List.mem_append.mpr (Or.inl (List.mem_append.mpr (Or.inr hx)))
  · exact Or.inr (Or.inl hck)
  · exact Or.inr (Or.inr (Or.inl hck))
  · exact Or.inr (Or.inr (Or.inr hck))

theorem C4_non_foldability_witness :
    (CompressedEvent.compressed ['h','e','l','l','o','\x08'] 0 120 ∈
        compressEvents helloEvents) ∧
      ((∃ pre seg post, helloEvents = pre ++ seg ++ post ∧ seg ≠ [] ∧
          (∀ x ∈ seg, (keyToString x).isSome = true) ∧
          ['h','e','l','l','o','\x08'] = seg.filterMap keyToString) ∧
        ∀ c ∈ (['h','e','l','l','o','\x08'] : List Char),
          (∃ k t, RawEvent.key k t ∈ helloEvents ∧ c = k) ∨
            c = '\x08' ∨ c = '\n' ∨ c = '\x7F') :=
  ⟨by simp [compress_hello],
    C4_non_foldability helloEvents ['h','e','l','l','o','\x08'] 0 120
      (by simp [compress_hello])⟩

/-- Claim C5: compressing key `a` at 0 and key `b` at 2000 (gap at the
1600 ms threshold) yields exactly the two raw-key events with latencies 0
and 2000 and no `COMPRESSED` element. -/
theorem C5_no_compression_across_gap :
    compressEvents abEvents =
      [CompressedEvent.raw_key 'a' 0, CompressedEvent.raw_key 'b' 2000] :=
  compress_ab

/-- Claim C6: compressing `h,e,l,l,o` at 0,120,240,360,480 followed by
Backspace at 600 yields the single `COMPRESSED` event with the
escape-folded string `hello\x08`, latency 0 and mean interval 120. -/
theorem C6_hello_backspace_folded :
    compressEvents helloEvents =
      [CompressedEvent.compressed ['h','e','l','l','o','\x08'] 0 120] :=
  compress_hello

/-- Claim C7 counterexample: after `setSpeed(2)` then `setSpeed(0)` the
effective speed is `1.0`, not the previously configured valid speed `2`
(`changeSpeed` resets to the default on invalid input instead of
retaining the previous value). -/
theorem C7_counterexample :
    (changeSpeed 0 (changeSpeed 2 initialReviewState)).speed = 1 ∧
      (changeSpeed 0 (changeSpeed 2 initialReviewState)).speed ≠ 2 := by
  constructor <;> norm_num [changeSpeed]

/-- Claim C7 (amended): any value ≤ 0 passed to `changeSpeed` is rejected
and the speed is reset to the default `1.0` (not the previously
configured speed); the effective speed is therefore always positive and a
positive value is stored as given. -/
theorem C7_speed_validation (s : ℚ) (st : ReviewState) :
    0 < (changeSpeed s st).speed ∧
      (s ≤ 0 → (changeSpeed s st).speed = 1) ∧
      (0 < s → (changeSpeed s st).speed = s) := by
  by_cases h : 0 < s
  · exact ⟨by simp [changeSpeed, h], fun hle => absurd h (not_lt.mpr hle),
      fun _ => by simp [changeSpeed, h]⟩
  · exact ⟨by norm_num [changeSpeed, h], fun _ => by simp [changeSpeed, h],
      fun hlt => absurd hlt h⟩

theorem C7_speed_validation_witness :
    (changeSpeed (-3) initialReviewState).speed = 1 :=
  (C7_speed_validation (-3) initialReviewState).2.1 (by norm_num)

/-- Claim C8 counterexample: calling `startReplay` on a state with an
empty event log raises the error `No events to replay` (it does not
transition to a finished state silently) and leaves the scheduler state
unchanged, i.e. still idle. -/
theorem C8_counterexample :
    (startReplay initialReviewState).2 ≠ none ∧
      (startReplay initialReviewState).1 = initialReviewState ∧
      (startReplay initialReviewState).1.isPlaying = false := by
  refine ⟨?_, ?_, ?_⟩ <;> simp [startReplay, initialReviewState]

/-- Claim C8 (amended): `startReplay` on an empty log does not start
playback: it reports the error `No events to replay` and returns the
state unchanged (the scheduler stays idle; no exception is raised and the
replay loop never runs). -/
theorem C8_empty_log_start (st : ReviewState) (h : st.events = []) :
    startReplay st = (st, some msgNoEvents) := by
  simp [startReplay, h]

theorem C8_empty_log_start_witness :
    initialReviewState.events = [] ∧
      startReplay initialReviewState = (initialReviewState, some msgNoEvents) :=
  ⟨rfl, C8_empty_log_start initialReviewState rfl⟩

/-- Claim C9 counterexample: from the invariant-satisfying buffer
`⟨"ab", 0⟩`, the cursor update applied for a `SELECTION_CHANGE` event
with `start = 5` leaves the cursor at 5, beyond the text length 2 —
`updateCursorPosition` performs no clamping. -/
theorem C9_counterexample :
    (⟨['a','b'], 0⟩ : TextBuffer).cursor ≤ (⟨['a','b'], 0⟩ : TextBuffer).text.length ∧
      ¬ (updateCursorPosition 5 5 ⟨['a','b'], 0⟩).cursor ≤
          (updateCursorPosition 5 5 ⟨['a','b'], 0⟩).text.length := by
  constructor
  · decide
  · decide

/-- Claim C9 (amended): every text-buffer operation is a total function,
and all of them preserve the invariant `cursor ≤ length text` — except
the `SELECTION_CHANGE` cursor update, which preserves it exactly when the
event's `start` offset is within the current text (it copies `start`
unclamped). -/
theorem C9_buffer_invariant (b : TextBuffer) (hb : b.cursor ≤ b.text.length) :
    (∀ c, (insertCharacter c b).cursor ≤ (insertCharacter c b).text.length) ∧
      (∀ s, (insertText s b).cursor ≤ (insertText s b).text.length) ∧
      (∀ k, (applySpecialKey k b).cursor ≤ (applySpecialKey k b).text.length) ∧
      (∀ a e2, a ≤ b.text.length →
        (updateCursorPosition a e2 b).cursor ≤
          (updateCursorPosition a e2 b).text.length) := by
  refine ⟨?_, ?_, ?_, ?_⟩
  · intro c
    simp only [insertCharacter, List.length_append, List.length_take,
      List.length_drop, List.length_cons, List.length_nil]
    omega
  · intro s
    simp only [insertText, List.length_append, List.length_take, List.length_drop]
    omega
  · intro k
    cases k with
    | Backspace =>
      by_cases hc : 0 < b.cursor
      · simp only [applySpecialKey, if_pos hc, List.length_append, List.length_take,
          List.length_drop]
        omega
      · simp only [applySpecialKey, if_neg hc]
        exact hb
    | Delete =>
      by_cases hc : b.cursor < b.text.length
      · simp only [applySpecialKey, if_pos hc, List.length_append, List.length_take,
          List.length_drop]
        omega
      · simp only [applySpecialKey, if_neg hc]
        exact hb
    | Enter =>
      simp only [applySpecialKey, List.length_append, List.length_take,
        List.length_drop, List.length_cons, List.length_nil]
      omega
    | ArrowLeft =>
      by_cases hc : 0 < b.cursor
      · simp only [applySpecialKey, if_pos hc]
        omega
      · simp only [applySpecialKey, if_neg hc]
        exact hb
    | ArrowRight =>
      by_cases hc : b.cursor < b.text.length
      · simp only [applySpecialKey, if_pos hc]
        omega
      · simp only [applySpecialKey, if_neg hc]
        exact hb
    | ArrowUp => exact hb
    | ArrowDown => exact hb
  · intro a e2 ha
    simpa [updateCursorPosition] using ha

theorem C9_buffer_invariant_witness :
    ((⟨['a'], 1⟩ : TextBuffer).cursor ≤ (⟨['a'], 1⟩ : TextBuffer).text.length) ∧
      ((1:Nat) ≤ (⟨['a'], 1⟩ : TextBuffer).text.length) ∧
      (updateCursorPosition 1 1 ⟨['a'], 1⟩).cursor ≤
        (updateCursorPosition 1 1 ⟨['a'], 1⟩).text.length :=
  ⟨by decide, by decide,
    (C9_buffer_invariant ⟨['a'], 1⟩ (by decide)).2.2.2 1 1 (by decide)⟩

/-- Claim C10: `processAndPack` fails with a descriptive error exactly on
invalid submissions (missing data, non-array `rawEvents`, missing
metadata, missing/blank student name, missing `finalAnswer`), returning
no output at all in that case, and succeeds with a packed submission on
every valid one. -/
theorem C10_validation (now : ℚ) (data? : Option SubmissionData) :
    (¬ validSubmission data? → ∃ msg, processAndPack now data? = Except.error msg) ∧
      (validSubmission data? → ∃ pack, processAndPack now data? = Except.ok pack) := by
  constructor
  · intro hinv
    cases data? with
    | none => exact ⟨msgNoData, rfl⟩
    | some data =>
      cases hre : data.rawEvents with
      | none => exact ⟨msgRawEventsArray, by simp [processAndPack, hre]⟩
      | some re =>
        cases hmd : data.metadata with
        | none => exact ⟨msgMetadataRequired, by simp [processAndPack, hre, hmd]⟩
        | some md =>
          cases hname : md.studentName with
          | none =>
            exact ⟨msgStudentNameRequired, by simp [processAndPack, hre, hmd, hname]⟩
          | some name =>
            by_cases htrim : trimWhitespace name = []
            · exact ⟨msgStudentNameRequired,
                by simp [processAndPack, hre, hmd, hname, htrim]⟩
            · cases hfa : data.finalAnswer with
              | none =>
                exact ⟨msgFinalAnswerRequired,
                  by simp [processAndPack, hre, hmd, hname, htrim, hfa]⟩
              | some ans =>
                exact absurd ⟨data, rfl, by simp [hre],
                  ⟨md, name, hmd, hname, htrim⟩, by simp [hfa]⟩ hinv
  · rintro ⟨data, rfl, hre, ⟨md, name, hmd, hname, htrim⟩, hfa⟩
    obtain ⟨re, hre2⟩ := Option.isSome_iff_exists.mp hre
    obtain ⟨ans, hfa2⟩ := Option.isSome_iff_exists.mp hfa
    exact ⟨{ examId := DEFAULT_EXAM_ID, metadata := md,
             q1 := { questionIndex := data.questionIndex,
                     questionTitle := data.questionTitle,
                     question := data.questionText, finalAnswer := ans,
                     startTime_ms := data.startTime_ms,
                     endTime_ms := calculateEndTime re data.startTime_ms now,
                     eventLog := compressEvents re } },
           by simp [processAndPack, hre2, hmd, hname, htrim, hfa2]⟩

theorem C10_validation_witness :
    ∃ msg, processAndPack 0 none = Except.error msg :=
  (C10_validation 0 none).1 (by simp [validSubmission])
